import Mathlib

/-! Shark: order statistics utilities and the hypervolume calculator front end.

Verification development for

* `include/shark/Core/utility/functional.h`
  (`median_element`, `partitionEqually`);
* `include/shark/Algorithms/DirectSearch/Operators/Hypervolume/HypervolumeCalculator.h`
  (`HypervolumeCalculator::operator()`).

A range is a `List α`; an iterator into it is its offset from `boost::begin(range)`, so the
end iterator of `range` is `range.length`.  The element type carries a linear order, which
stands for `operator<` / `operator==` of the value type.

The two functions of the C++ standard library that `functional.h` calls, `std::nth_element`
and `std::partition`, are not part of the repository.  They are parameters of the embedding,
constrained by the postconditions that the C++ standard gives them (`NthElementSpec`,
`PartitionSpec`).  Two concrete conforming implementations (`quickselect`,
`stablePartition`) are supplied so that every statement can be run on concrete inputs, and
the algorithms of libstdc++ (`libstdcxx_nth_element`, `libstdcxx_partition`) are transcribed
to evaluate `partitionEqually` on the arrangement that the library leaves.

The algorithm objects that `HypervolumeCalculator::operator()` delegates to are parameters as
well; the 2D algorithm is in addition modelled from the specification (`hypervolume2D`).
-/

namespace shark

section StandardLibrary

variable {α : Type}

/-! ## The standard library interface used by `functional.h` -/

/-- Postcondition of `std::partition(first, last, pred)`: the range is permuted so that the
elements satisfying `pred` precede those that do not; the returned iterator (second
component, an offset from `first`) points to the first element of the second group. -/
def PartitionSpec (partition : (α → Bool) → List α → List α × Nat) : Prop :=
  ∀ (pred : α → Bool) (range : List α),
    (partition pred range).1.Perm range ∧
    (partition pred range).2 ≤ range.length ∧
    (∀ x ∈ (partition pred range).1.take (partition pred range).2, pred x = true) ∧
    (∀ x ∈ (partition pred range).1.drop (partition pred range).2, pred x = false)

/-- Stable partition: a conforming implementation of `std::partition`. -/
def stablePartition (pred : α → Bool) (range : List α) : List α × Nat :=
  (range.filter pred ++ range.filter (fun x => !pred x), (range.filter pred).length)

/-! ## The library's `std::partition`

The algorithm of libstdc++ (`bits/stl_algo.h`, `__partition` for bidirectional iterators),
on a list with offsets for iterators.  The loops of the library carry a fuel argument here;
the length of the range is enough fuel for each of them. -/

/-- The library's `std::iter_swap(i, j)`: exchanges the elements at two offsets. -/
def iter_swap (l : List α) (i j : Nat) : List α :=
  match l[i]?, l[j]? with
  | some a, some b => (l.set i b).set j a
  | _, _ => l

/-- The test `pred(*i)`. -/
def pred_at (pred : α → Bool) (l : List α) (i : Nat) : Bool :=
  match l[i]? with
  | some a => pred a
  | none => false

/-- First inner loop of `__partition`: advances `first` while it is not `last` and
`pred(*first)` holds. -/
def partition_scan_up (pred : α → Bool) (l : List α) (last : Nat) : Nat → Nat → Nat
  | 0, first => first
  | fuel + 1, first =>
    if first = last then first
    else if pred_at pred l first then partition_scan_up pred l last fuel (first + 1)
    else first

/-- Second inner loop of `__partition`: moves `last` down while it is not `first` and
`pred(*last)` fails. -/
def partition_scan_down (pred : α → Bool) (l : List α) (first : Nat) : Nat → Nat → Nat
  | 0, last => last
  | fuel + 1, last =>
    if first = last then last
    else if !pred_at pred l last then partition_scan_down pred l first fuel (last - 1)
    else last

/-- Outer loop of `__partition(first, last, pred, bidirectional_iterator_tag)`. -/
def partition_loop (pred : α → Bool) : Nat → List α → Nat → Nat → List α × Nat
  | 0, l, first, _ => (l, first)
  | fuel + 1, l, first, last =>
    let first1 := partition_scan_up pred l last l.length first
    if first1 = last then (l, first1)
    else
      let last1 := partition_scan_down pred l first1 l.length (last - 1)
      if first1 = last1 then (l, first1)
      else partition_loop pred fuel (iter_swap l first1 last1) (first1 + 1) last1

/-- The library's `std::partition(first, last, pred)` on the whole of `range`. -/
def libstdcxx_partition (pred : α → Bool) (range : List α) : List α × Nat :=
  partition_loop pred range.length range 0 range.length

end StandardLibrary

section OrderStatistics

variable {α : Type} [LinearOrder α]

/-- Postcondition of `std::nth_element(first, nth, last)` with `nth` at offset `n`:
the range is permuted, and when `nth` is not the end iterator the element at `nth` is the one
a full sort would put there, i.e. nothing before it is greater and nothing from it on is
smaller. -/
def NthElementSpec (nth_element : List α → Nat → List α) : Prop :=
  ∀ (range : List α) (n : Nat), n ≤ range.length →
    (nth_element range n).Perm range ∧
    ∀ v, (nth_element range n)[n]? = some v →
      (∀ x ∈ (nth_element range n).take n, x ≤ v) ∧
      (∀ y ∈ (nth_element range n).drop n, v ≤ y)

/-! ## `functional.h` -/

/-- The function `median_element(Range& range)` of functional.h, lines 67-78.  Returns the
reordered range together with `medianIter` (as an offset). -/
def median_element (nth_element : List α → Nat → List α) (range : List α) : List α × Nat :=
  let size := range.length
  let medianPos := (size + 1) / 2
  let medianIter := 0 + medianPos
  (nth_element range medianIter, medianIter)

/-- The function `partitionEqually(Range& range)` of functional.h, lines 94-117.  Returns the
reordered range and the split point (as an offset), or `none` when `*medianIter` would read the
past-the-end position.  The two `boost::bind` predicates hold a copy of `*medianIter`.
Iterator differences are signed. -/
def partitionEqually (nth_element : List α → Nat → List α)
    (partition : (α → Bool) → List α → List α × Nat) (range : List α) : Option (List α × Nat) :=
  let begin_ : Nat := 0
  let r1 := (median_element nth_element range).1
  let medianIter := (median_element nth_element range).2
  match r1[medianIter]? with
  | none => none
  | some median =>
    -- std::partition(begin, medianIter, _1 < *medianIter)
    let p1 := partition (fun x => decide (x < median)) (r1.take medianIter)
    let r2 := p1.1 ++ r1.drop medianIter
    let left := begin_ + p1.2
    -- std::partition(medianIter, end, _1 == *medianIter)
    let p2 := partition (fun x => decide (x = median)) (r2.drop medianIter)
    let r3 := r2.take medianIter ++ p2.1
    let right := medianIter + p2.2
    if left = begin_ then some (r3, right)
    else if (medianIter : Int) - (left : Int) ≤ (right : Int) - (medianIter : Int) then
      some (r3, left)
    else some (r3, right)

/-! ## A conforming implementation of `std::nth_element` -/

/-- Quickselect with the first element as pivot, `fuel` bounding the recursion depth. -/
def quickselectAux : Nat → List α → Nat → List α
  | 0, l, _ => l
  | _, [], _ => []
  | fuel + 1, p :: t, k =>
    let lo := t.filter (fun x => decide (x < p))
    let hi := t.filter (fun x => !decide (x < p))
    if k < lo.length then quickselectAux fuel lo k ++ p :: hi
    else if k = lo.length then lo ++ p :: hi
    else lo ++ p :: quickselectAux fuel hi (k - lo.length - 1)

/-- Quickselect: a conforming implementation of `std::nth_element`. -/
def quickselect (range : List α) (n : Nat) : List α :=
  quickselectAux range.length range n

/-! ## The library's `std::nth_element`

The algorithm of libstdc++ (`bits/stl_algo.h`): `nth_element` calls `__introselect` with the
depth limit `2 * __lg(last - first)`; each round partitions around the median of three and
keeps the side that holds `nth`; a range of at most three elements is finished by insertion
sort.  The fallback `__heap_select`, taken only when the depth limit is used up, is a
parameter. -/

/-- The test `*i < *j`. -/
def lt_at (l : List α) (i j : Nat) : Bool :=
  match l[i]?, l[j]? with
  | some a, some b => decide (a < b)
  | _, _ => false

/-- The library's `__move_median_to_first(result, a, b, c)`. -/
def move_median_to_first (l : List α) (result a b c : Nat) : List α :=
  if lt_at l a b then
    if lt_at l b c then iter_swap l result b
    else if lt_at l a c then iter_swap l result c
    else iter_swap l result a
  else if lt_at l a c then iter_swap l result a
  else if lt_at l b c then iter_swap l result c
  else iter_swap l result b

/-- First inner loop of `__unguarded_partition`: `while (*first < *pivot) ++first`. -/
def unguarded_scan_up (l : List α) (pivot : Nat) : Nat → Nat → Nat
  | 0, first => first
  | fuel + 1, first =>
    if lt_at l first pivot then unguarded_scan_up l pivot fuel (first + 1) else first

/-- Second inner loop of `__unguarded_partition`: `while (*pivot < *last) --last`. -/
def unguarded_scan_down (l : List α) (pivot : Nat) : Nat → Nat → Nat
  | 0, last => last
  | fuel + 1, last =>
    if lt_at l pivot last then unguarded_scan_down l pivot fuel (last - 1) else last

/-- The library's `__unguarded_partition(first, last, pivot)`. -/
def unguarded_partition : Nat → List α → Nat → Nat → Nat → List α × Nat
  | 0, l, first, _, _ => (l, first)
  | fuel + 1, l, first, last, pivot =>
    let first1 := unguarded_scan_up l pivot l.length first
    let last1 := unguarded_scan_down l pivot l.length (last - 1)
    if ¬ first1 < last1 then (l, first1)
    else unguarded_partition fuel (iter_swap l first1 last1) (first1 + 1) last1 pivot

/-- The library's `__unguarded_partition_pivot(first, last)`. -/
def unguarded_partition_pivot (l : List α) (first last : Nat) : List α × Nat :=
  let mid := first + (last - first) / 2
  let l1 := move_median_to_first l first (first + 1) mid (last - 1)
  unguarded_partition l1.length l1 (first + 1) last first

/-- The library's `__insertion_sort(first, last)`: the elements of `[first, last)` in
ascending order, the rest of the range untouched. -/
def insertion_sort (l : List α) (first last : Nat) : List α :=
  l.take first ++ ((l.drop first).take (last - first)).insertionSort (fun a b => a ≤ b)
    ++ l.drop last

/-- The library's `__introselect(first, nth, last, depth_limit)`; the first argument is the
depth limit, `heap_select` stands for `__heap_select(first, middle, last)`. -/
def introselect (heap_select : List α → Nat → Nat → Nat → List α) :
    Nat → List α → Nat → Nat → Nat → List α
  | 0, l, first, nth, last =>
    if last - first > 3 then iter_swap (heap_select l first (nth + 1) last) first nth
    else insertion_sort l first last
  | depth_limit + 1, l, first, nth, last =>
    if last - first > 3 then
      let r := unguarded_partition_pivot l first last
      if r.2 ≤ nth then introselect heap_select depth_limit r.1 r.2 nth last
      else introselect heap_select depth_limit r.1 first nth r.2
    else insertion_sort l first last

/-- The library's `__lg(n)`, the integer binary logarithm, by halving at most `fuel` times. -/
def lgAux : Nat → Nat → Nat
  | 0, _ => 0
  | fuel + 1, n => if n ≤ 1 then 0 else lgAux fuel (n / 2) + 1

/-- The library's `std::nth_element(first, nth, last)` on the whole of `range`, with `nth`
at offset `n`. -/
def libstdcxx_nth_element (heap_select : List α → Nat → Nat → Nat → List α)
    (range : List α) (n : Nat) : List α :=
  if range.length = 0 ∨ n = range.length then range
  else introselect heap_select (lgAux range.length range.length * 2) range 0 n range.length

end OrderStatistics

section Hypervolume

/-! ## `HypervolumeCalculator.h` -/

/-- The four algorithm objects `HypervolumeCalculator::operator()` can call. -/
inductive Algorithm where
  | exact2D
  | exact3D
  | exactND
  | approximator
  deriving DecidableEq

/-- The algorithm objects `HypervolumeCalculator2D`, `HypervolumeCalculator3D`,
`HypervolumeCalculatorND` and the member `m_approximationAlgorithm`
(a `HypervolumeApproximator`).  Their headers are not among the sources, so they are
parameters: each takes the extractor, the points and the reference point.  `P` is the point
type, `R` the coordinate type and `D` the result type. -/
structure Algorithms (P R D : Type) where
  calculator2D : (P → List R) → List P → List R → D
  calculator3D : (P → List R) → List P → List R → D
  calculatorND : (P → List R) → List P → List R → D
  m_approximationAlgorithm : (P → List R) → List P → List R → D

/-- One call of an algorithm object: which one, and with which three arguments. -/
structure Invocation (P R : Type) where
  algorithm : Algorithm
  extractor : P → List R
  points : List P
  refPoint : List R

/-- The algorithm objects that only record how they are called. -/
def recording (P R : Type) : Algorithms P R (Invocation P R) where
  calculator2D := fun e ps r => ⟨Algorithm.exact2D, e, ps, r⟩
  calculator3D := fun e ps r => ⟨Algorithm.exact3D, e, ps, r⟩
  calculatorND := fun e ps r => ⟨Algorithm.exactND, e, ps, r⟩
  m_approximationAlgorithm := fun e ps r => ⟨Algorithm.approximator, e, ps, r⟩

/-- Replays a recorded call on actual algorithm objects. -/
def Algorithms.run {P R D : Type} (alg : Algorithms P R D) (i : Invocation P R) : D :=
  match i.algorithm with
  | Algorithm.exact2D => alg.calculator2D i.extractor i.points i.refPoint
  | Algorithm.exact3D => alg.calculator3D i.extractor i.points i.refPoint
  | Algorithm.exactND => alg.calculatorND i.extractor i.points i.refPoint
  | Algorithm.approximator => alg.m_approximationAlgorithm i.extractor i.points i.refPoint

/-- What a call of `operator()` comes to. -/
inductive Outcome (D : Type) where
  -- the call dereferenced `points.begin()` of an empty collection
  | undefined
  -- the call failed in `SIZE_CHECK`
  | invalidArgument
  -- the call returned the value of the algorithm it delegated to
  | returned (value : D)
  deriving DecidableEq

/-- Applies a function to the returned value, if any. -/
def Outcome.map {D E : Type} (f : D → E) : Outcome D → Outcome E
  | Outcome.undefined => Outcome.undefined
  | Outcome.invalidArgument => Outcome.invalidArgument
  | Outcome.returned v => Outcome.returned (f v)

/-- Modelled from the spec: the macro `SIZE_CHECK`, whose header is not among the sources.
Section 4.1 of the specification: a violated size condition is "checked defensively and
reported as an invalid-argument failure"; section 7: "no partial result is returned". -/
def SIZE_CHECK {D : Type} (cond : Bool) (rest : Outcome D) : Outcome D :=
  if cond then rest else Outcome.invalidArgument

/-- The data members `m_useLogHyp` and `m_useApproximation` of `struct HypervolumeCalculator`
(the third member, `m_approximationAlgorithm`, is a field of `Algorithms`). -/
structure HypervolumeCalculator where
  m_useLogHyp : Bool
  m_useApproximation : Bool
  deriving DecidableEq

/-- The default constructor, HypervolumeCalculator.h line 50. -/
def HypervolumeCalculator.new : HypervolumeCalculator :=
  { m_useLogHyp := false, m_useApproximation := false }

/-- The setter `useLogHyp(bool)`, HypervolumeCalculator.h line 53. -/
def HypervolumeCalculator.useLogHyp (self : HypervolumeCalculator) (useLogHyp : Bool) :
    HypervolumeCalculator :=
  { self with m_useLogHyp := useLogHyp }

/-- The setter `useApproximation(bool)`, HypervolumeCalculator.h line 56. -/
def HypervolumeCalculator.useApproximation (self : HypervolumeCalculator)
    (useApproximation : Bool) : HypervolumeCalculator :=
  { self with m_useApproximation := useApproximation }

/-- The call operator `HypervolumeCalculator::operator()`, HypervolumeCalculator.h lines
84-117.  `log` is the scalar logarithm; `log(extractor(x))` in the source is the
coordinate-wise logarithm of a vector. -/
def HypervolumeCalculator.apply {P R D : Type} (self : HypervolumeCalculator)
    (alg : Algorithms P R D) (log : R → R)
    (extractor : P → List R) (points : List P) (refPoint : List R) : Outcome D :=
  match points.head? with
  | none => Outcome.undefined
  | some first =>
    SIZE_CHECK (decide ((extractor first).length = refPoint.length)) <|
      let numObjectives := refPoint.length
      if numObjectives = 2 then
        if self.m_useLogHyp then
          Outcome.returned (alg.calculator2D (fun x => (extractor x).map log) points refPoint)
        else
          Outcome.returned (alg.calculator2D extractor points refPoint)
      else if numObjectives = 3 then
        if self.m_useLogHyp then
          Outcome.returned (alg.calculator3D (fun x => (extractor x).map log) points refPoint)
        else
          Outcome.returned (alg.calculator3D extractor points refPoint)
      else if self.m_useApproximation then
        if self.m_useLogHyp then
          Outcome.returned
            (alg.m_approximationAlgorithm (fun x => (extractor x).map log) points refPoint)
        else
          Outcome.returned (alg.m_approximationAlgorithm extractor points refPoint)
      else
        if self.m_useLogHyp then
          Outcome.returned (alg.calculatorND (fun x => (extractor x).map log) points refPoint)
        else
          Outcome.returned (alg.calculatorND extractor points refPoint)

/-! ## The 2D algorithm -/

/-- Modelled from the spec: the sweep of the 2D algorithm `HypervolumeCalculator2D`, whose
header is not among the sources.  Section 4.2 of the specification: over the points sorted
ascending by one coordinate, "each point contributes exactly the area exclusively dominated
by it and not already counted by a previously processed, better point", with "a running
best-so-far frontier on the remaining coordinates"; a point that does not improve the
frontier contributes zero.  `ref0` is the first coordinate of the reference point and `best`
the frontier on the second coordinate. -/
def sweep2D (ref0 : Int) : Int → List (Int × Int) → Int
  | _, [] => 0
  | best, (x, y) :: rest =>
    if y < best then (ref0 - x) * (best - y) + sweep2D ref0 y rest
    else sweep2D ref0 best rest

/-- Modelled from the spec: the 2D algorithm `HypervolumeCalculator2D`, whose header is not
among the sources.  Section 4.2 of the specification: "sorting points along one axis and
sweeping, accumulating rectangular (2D) ... contributions between consecutive sorted points
and the reference point"; "sort order is by one fixed coordinate ascending".  Coordinates are
integers here. -/
def hypervolume2D {P : Type} (extractor : P → List Int) (points : List P)
    (refPoint : List Int) : Int :=
  let set := (points.map (fun p => ((extractor p).getD 0 0, (extractor p).getD 1 0))).insertionSort
    (fun a b => a.1 ≤ b.1)
  sweep2D (refPoint.getD 0 0) (refPoint.getD 1 0) set

/-- Modelled from the spec: "the volume of the region dominated by the point set and bounded
by the reference point" (section 1), for points with integer coordinates in the box from the
origin to the reference point: the number of unit cells `[a, a + 1] x [b, b + 1]` of that box
that some point dominates (is componentwise `<=` the corner `(a, b)`). -/
def dominatedArea (points : List (Int × Int)) (refPoint : Int × Int) : Nat :=
  ((List.range refPoint.1.toNat).product (List.range refPoint.2.toNat)).countP
    (fun c => points.any (fun p => decide (p.1 ≤ (c.1 : Int)) && decide (p.2 ≤ (c.2 : Int))))

/-- The algorithm objects with the 2D algorithm of the specification; the other three are
parameters. -/
def withHypervolume2D {P : Type} (calculator3D calculatorND approximation :
    (P → List Int) → List P → List Int → Int) : Algorithms P Int Int where
  calculator2D := hypervolume2D
  calculator3D := calculator3D
  calculatorND := calculatorND
  m_approximationAlgorithm := approximation

end Hypervolume

/-! # Theorems -/

section OrderStatisticsProofs

variable {α : Type}

/-! ## The reference implementations conform -/

/-- The stable partition satisfies the postcondition of `std::partition`. -/
theorem stablePartition_spec :
    PartitionSpec (stablePartition : (α → Bool) → List α → List α × Nat) := by
  intro pred range
  refine ⟨?_, ?_, ?_, ?_⟩
  · simpa [stablePartition] using List.filter_append_perm pred range
  · simpa [stablePartition] using List.length_filter_le pred range
  · intro x hx
    simp [stablePartition] at hx
    exact hx.2
  · intro x hx
    simp [stablePartition] at hx
    simpa using hx.2

/-- Taking `lo.length` elements of `lo ++ mid ++ hi` gives `lo`. -/
theorem take_lo (lo mid hi : List α) : (lo ++ mid ++ hi).take lo.length = lo := by
  rw [List.append_assoc]; exact List.take_left' rfl

/-- Dropping `lo.length` elements of `lo ++ mid ++ hi` leaves `mid ++ hi`. -/
theorem drop_lo (lo mid hi : List α) : (lo ++ mid ++ hi).drop lo.length = mid ++ hi := by
  rw [List.append_assoc]; exact List.drop_left' rfl

/-- Taking `lo.length + mid.length` elements of `lo ++ mid ++ hi` gives `lo ++ mid`. -/
theorem take_lo_mid (lo mid hi : List α) :
    (lo ++ mid ++ hi).take (lo.length + mid.length) = lo ++ mid :=
  List.take_left' (List.length_append lo mid)

/-- Dropping `lo.length + mid.length` elements of `lo ++ mid ++ hi` leaves `hi`. -/
theorem drop_lo_mid (lo mid hi : List α) :
    (lo ++ mid ++ hi).drop (lo.length + mid.length) = hi :=
  List.drop_left' (List.length_append lo mid)

variable [LinearOrder α]

/-- Quickselect permutes its input, whatever the fuel. -/
theorem quickselectAux_perm : ∀ (fuel : Nat) (l : List α) (k : Nat),
    (quickselectAux fuel l k).Perm l := by
  intro fuel
  induction fuel with
  | zero => intro l k; cases l <;> simp [quickselectAux]
  | succ f ih =>
    intro l k
    cases l with
    | nil => simp [quickselectAux]
    | cons p t =>
      have hperm : (t.filter (fun x => decide (x < p)) ++
          p :: t.filter (fun x => !decide (x < p))).Perm (p :: t) := by
        refine List.perm_middle.trans (List.Perm.cons p ?_)
        exact List.filter_append_perm (fun x => decide (x < p)) t
      simp only [quickselectAux]
      split_ifs with h1 h2
      · exact (List.Perm.append_right _ (ih _ _)).trans hperm
      · exact hperm
      · exact (List.Perm.append_left _ (List.Perm.cons p (ih _ _))).trans hperm

/-- With fuel for the whole list, quickselect puts the `k`-th smallest element at offset
`k`, nothing greater before it and nothing smaller after it. -/
theorem quickselectAux_order : ∀ (fuel : Nat) (l : List α) (k : Nat), l.length ≤ fuel →
    ∀ v, (quickselectAux fuel l k)[k]? = some v →
      (∀ x ∈ (quickselectAux fuel l k).take k, x ≤ v) ∧
      (∀ y ∈ (quickselectAux fuel l k).drop k, v ≤ y) := by
  intro fuel
  induction fuel with
  | zero =>
    intro l k hl v hv
    have : l = [] := List.length_eq_zero.mp (Nat.le_zero.mp hl)
    subst this
    simp [quickselectAux] at hv
  | succ f ih =>
    intro l k hl v hv
    cases l with
    | nil => simp [quickselectAux] at hv
    | cons p t =>
      have hlo : ∀ x ∈ t.filter (fun x => decide (x < p)), x < p := by
        intro x hx; simpa using (List.mem_filter.mp hx).2
      have hhi : ∀ x ∈ t.filter (fun x => !decide (x < p)), p ≤ x := by
        intro x hx; simpa using (List.mem_filter.mp hx).2
      have hlolen : (t.filter (fun x => decide (x < p))).length ≤ f :=
        (List.length_filter_le _ t).trans (by simpa using hl)
      have hhilen : (t.filter (fun x => !decide (x < p))).length ≤ f :=
        (List.length_filter_le _ t).trans (by simpa using hl)
      simp only [quickselectAux] at hv ⊢
      split_ifs at hv ⊢ with h1 h2
      · -- the element sought lies below the pivot
        have hlen : (quickselectAux f (t.filter (fun x => decide (x < p))) k).length
            = (t.filter (fun x => decide (x < p))).length := (quickselectAux_perm _ _ _).length_eq
        have hk : k < (quickselectAux f (t.filter (fun x => decide (x < p))) k).length := by omega
        rw [List.getElem?_append_left hk] at hv
        obtain ⟨ih1, ih2⟩ := ih _ k hlolen v hv
        have hvmem : v ∈ t.filter (fun x => decide (x < p)) :=
          (quickselectAux_perm _ _ _).subset (List.getElem?_mem hv)
        have hvp : v < p := hlo v hvmem
        rw [List.take_append_of_le_length hk.le, List.drop_append_of_le_length hk.le]
        refine ⟨ih1, ?_⟩
        intro y hy
        rcases List.mem_append.mp hy with hy | hy
        · exact ih2 y hy
        · rcases List.mem_cons.mp hy with rfl | hy
          · exact hvp.le
          · exact hvp.le.trans (hhi y hy)
      · -- the pivot is the element sought
        subst h2
        rw [List.getElem?_append_right (le_refl _)] at hv
        simp only [Nat.sub_self, List.getElem?_cons_zero, Option.some.injEq] at hv
        subst hv
        simp only [List.take_left', List.drop_left']
        refine ⟨fun x hx => (hlo x hx).le, ?_⟩
        intro y hy
        rcases List.mem_cons.mp hy with rfl | hy
        · exact le_refl _
        · exact hhi y hy
      · -- the element sought lies above the pivot
        obtain ⟨d, hd⟩ : ∃ d, k = (t.filter (fun x => decide (x < p))).length + (d + 1) :=
          ⟨k - (t.filter (fun x => decide (x < p))).length - 1, by omega⟩
        have hd' : k - (t.filter (fun x => decide (x < p))).length - 1 = d := by omega
        rw [hd'] at hv ⊢
        rw [hd] at hv ⊢
        rw [List.getElem?_append_right (by omega)] at hv
        simp only [Nat.add_sub_cancel_left, List.getElem?_cons_succ] at hv
        obtain ⟨ih1, ih2⟩ := ih _ d hhilen v hv
        have hvmem : v ∈ t.filter (fun x => !decide (x < p)) :=
          (quickselectAux_perm _ _ _).subset (List.getElem?_mem hv)
        have hpv : p ≤ v := hhi v hvmem
        rw [List.take_append, List.drop_append]
        simp only [List.take_succ_cons, List.drop_succ_cons]
        refine ⟨?_, ih2⟩
        intro x hx
        rcases List.mem_append.mp hx with hx | hx
        · exact ((hlo x hx).le).trans hpv
        · rcases List.mem_cons.mp hx with rfl | hx
          · exact hpv
          · exact ih1 x hx

/-- Quickselect satisfies the postcondition of `std::nth_element`. -/
theorem quickselect_spec : NthElementSpec (quickselect : List α → Nat → List α) := by
  intro range n _
  exact ⟨quickselectAux_perm _ _ _, quickselectAux_order _ _ _ (le_refl _)⟩

/-! ## The shape of the range after `partitionEqually` -/

/-- After `partitionEqually` on a range of at least two elements the range reads
`lo ++ mid ++ hi` with `lo` below, `mid` equal to and `hi` above the median value `v`; the
median offset falls inside `mid`, and the split point is the start of `mid` or the start of
`hi` as the three branches of the source decide. -/
theorem partitionEqually_shape {nth_element : List α → Nat → List α}
    {partition : (α → Bool) → List α → List α × Nat}
    (hn : NthElementSpec nth_element) (hp : PartitionSpec partition)
    (range : List α) (h2 : 2 ≤ range.length) :
    ∃ (lo mid hi : List α) (v : α),
      (median_element nth_element range).1[(median_element nth_element range).2]? = some v ∧
      (lo ++ mid ++ hi).Perm range ∧
      (∀ x ∈ lo, x < v) ∧ (∀ x ∈ mid, x = v) ∧ (∀ x ∈ hi, v < x) ∧
      lo.length ≤ (range.length + 1) / 2 ∧
      (range.length + 1) / 2 < lo.length + mid.length ∧
      partitionEqually nth_element partition range = some (lo ++ mid ++ hi,
        if lo.length = 0 then lo.length + mid.length
        else if (range.length + 1) / 2 - lo.length
            ≤ lo.length + mid.length - (range.length + 1) / 2 then lo.length
        else lo.length + mid.length) := by
  have hm : (range.length + 1) / 2 < range.length := by omega
  obtain ⟨hperm1, hord⟩ := hn range ((range.length + 1) / 2) hm.le
  have hlen1 : (nth_element range ((range.length + 1) / 2)).length = range.length :=
    hperm1.length_eq
  have hmlt : (range.length + 1) / 2 < (nth_element range ((range.length + 1) / 2)).length := by
    omega
  obtain ⟨v, hget⟩ : ∃ v, (nth_element range ((range.length + 1) / 2))[(range.length + 1) / 2]?
      = some v := ⟨_, List.getElem?_eq_getElem hmlt⟩
  obtain ⟨hA, hB⟩ := hord v hget
  simp only [partitionEqually, median_element, Nat.zero_add, hget]
  generalize hr1 : nth_element range ((range.length + 1) / 2) = r1 at *
  generalize hmdef : (range.length + 1) / 2 = m at *
  obtain ⟨hp1perm, hp1le, hp1t, hp1f⟩ := hp (fun x => decide (x < v)) (r1.take m)
  have hp1len : (partition (fun x => decide (x < v)) (r1.take m)).1.length = m := by
    rw [hp1perm.length_eq, List.length_take]; omega
  generalize hp1 : partition (fun x => decide (x < v)) (r1.take m) = p1 at *
  have hr2drop : (p1.1 ++ r1.drop m).drop m = r1.drop m := by
    rw [← hp1len]; exact List.drop_left' rfl
  have hr2take : (p1.1 ++ r1.drop m).take m = p1.1 := by
    rw [← hp1len]; exact List.take_left' rfl
  obtain ⟨hp2perm, hp2le, hp2t, hp2f⟩ := hp (fun x => decide (x = v)) (r1.drop m)
  generalize hp2 : partition (fun x => decide (x = v)) (r1.drop m) = p2 at *
  have hvB : v ∈ r1.drop m := by
    rw [List.mem_iff_getElem?]
    exact ⟨0, by rw [List.getElem?_drop]; simpa using hget⟩
  have hp2pos : 0 < p2.2 := by
    rcases Nat.eq_zero_or_pos p2.2 with h0 | h0
    · exfalso
      have hv2 : v ∈ p2.1.drop p2.2 := by
        rw [h0, List.drop_zero]; exact hp2perm.symm.subset hvB
      simpa using hp2f v hv2
    · exact h0
  have hp1le' : p1.2 ≤ m := by
    have h := hp1le
    rw [List.length_take] at h
    omega
  have hlolen : (p1.1.take p1.2).length = p1.2 := by
    rw [List.length_take, hp1len]; omega
  have hsplit1 : p1.1 = p1.1.take p1.2 ++ p1.1.drop p1.2 := (List.take_append_drop _ _).symm
  have hsplit2 : p2.1 = p2.1.take p2.2 ++ p2.1.drop p2.2 := (List.take_append_drop _ _).symm
  have hp2len : p2.1.length = r1.length - m := by rw [hp2perm.length_eq, List.length_drop]
  have hmidlen : (p1.1.drop p1.2 ++ p2.1.take p2.2).length = (m - p1.2) + p2.2 := by
    rw [List.length_append, List.length_drop, List.length_take, hp1len]
    have : p2.2 ≤ p2.1.length := by rw [hp2perm.length_eq]; exact hp2le
    omega
  have hout : p1.1 ++ p2.1
      = p1.1.take p1.2 ++ (p1.1.drop p1.2 ++ p2.1.take p2.2) ++ p2.1.drop p2.2 := by
    simp only [List.append_assoc, List.take_append_drop]
    rw [← List.append_assoc, List.take_append_drop]
  refine ⟨p1.1.take p1.2, p1.1.drop p1.2 ++ p2.1.take p2.2, p2.1.drop p2.2, v, rfl,
    ?_, ?_, ?_, ?_, ?_, ?_, ?_⟩
  · rw [← hout]
    refine (hp1perm.append hp2perm).trans ?_
    rw [List.take_append_drop]
    exact hperm1
  · intro x hx
    exact of_decide_eq_true (hp1t x hx)
  · intro x hx
    rcases List.mem_append.mp hx with hx | hx
    · have hnlt : ¬ x < v := of_decide_eq_false (hp1f x hx)
      have hle : x ≤ v := hA x (hp1perm.subset (List.mem_of_mem_drop hx))
      exact le_antisymm hle (not_lt.mp hnlt)
    · exact of_decide_eq_true (hp2t x hx)
  · intro x hx
    have hne : ¬ x = v := of_decide_eq_false (hp2f x hx)
    have hle : v ≤ x := hB x (hp2perm.subset (List.mem_of_mem_drop hx))
    exact lt_of_le_of_ne hle (fun h => hne h.symm)
  · rw [hlolen]; exact hp1le'
  · rw [hlolen, hmidlen]; omega
  · rw [hr2drop, hp2, hr2take, hlolen, hmidlen, ← hout]
    split_ifs <;> first | rfl | (congr 2; omega)

/-- The value `v` occurs in `lo ++ mid ++ hi` exactly `mid.length` times when `lo` is below,
`mid` equal to and `hi` above `v`. -/
theorem count_three_way (lo mid hi : List α) (v : α)
    (hlo : ∀ x ∈ lo, x < v) (hmid : ∀ x ∈ mid, x = v) (hhi : ∀ x ∈ hi, v < x) :
    (lo ++ mid ++ hi).count v = mid.length := by
  have h1 : lo.count v = 0 :=
    List.count_eq_zero_of_not_mem (fun h => lt_irrefl v (hlo v h))
  have h3 : hi.count v = 0 :=
    List.count_eq_zero_of_not_mem (fun h => lt_irrefl v (hhi v h))
  have h2 : mid.count v = mid.length :=
    List.count_eq_length.mpr (fun b hb => (hmid b hb).symm)
  rw [List.count_append, List.count_append, h1, h2, h3]
  omega

/-- On a range of fewer than two elements `partitionEqually` reads `*medianIter` at the
past-the-end position. -/
theorem partitionEqually_short {nth_element : List α → Nat → List α}
    (partition : (α → Bool) → List α → List α × Nat)
    (hn : NthElementSpec nth_element) (range : List α) (h : range.length < 2) :
    partitionEqually nth_element partition range = none := by
  have hm : (range.length + 1) / 2 = range.length := by omega
  have hlen : (nth_element range range.length).length = range.length :=
    (hn range range.length (le_refl _)).1.length_eq
  have hnone : (nth_element range range.length)[range.length]? = none :=
    List.getElem?_eq_none (by omega)
  simp only [partitionEqually, median_element, Nat.zero_add, hm, hnone]

/-! ## The element selected by `median_element` -/

/-- An element with nothing greater before it and nothing smaller after it sits where a full
sort puts it. -/
theorem getElem?_eq_sorted (out range : List α) (k : Nat) (v : α) (hperm : out.Perm range)
    (hv : out[k]? = some v) (hA : ∀ x ∈ out.take k, x ≤ v) (hB : ∀ y ∈ out.drop k, v ≤ y) :
    (range.insertionSort (fun a b => a ≤ b))[k]? = some v := by
  obtain ⟨hk, hvk⟩ := List.getElem?_eq_some.mp hv
  have hdrop : out.drop k = v :: out.drop (k + 1) := by
    rw [← hvk]; exact List.drop_eq_getElem_cons hk
  have hsplit : out = out.take k ++ v :: out.drop (k + 1) := by
    rw [← hdrop, List.take_append_drop]
  have hB' : ∀ y ∈ out.drop (k + 1), v ≤ y := by
    intro y hy
    exact hB y (by rw [hdrop]; exact List.mem_cons_of_mem _ hy)
  have hs1 := List.sorted_insertionSort (fun a b : α => a ≤ b) (out.take k)
  have hs2 := List.sorted_insertionSort (fun a b : α => a ≤ b) (out.drop (k + 1))
  have hp1 := List.perm_insertionSort (fun a b : α => a ≤ b) (out.take k)
  have hp2 := List.perm_insertionSort (fun a b : α => a ≤ b) (out.drop (k + 1))
  have hsorted : List.Sorted (fun a b : α => a ≤ b)
      ((out.take k).insertionSort (fun a b => a ≤ b) ++
        v :: (out.drop (k + 1)).insertionSort (fun a b => a ≤ b)) := by
    refine List.pairwise_append.mpr ⟨hs1, List.pairwise_cons.mpr ⟨?_, hs2⟩, ?_⟩
    · intro y hy
      exact hB' y (hp2.subset hy)
    · intro x hx y hy
      have hxv : x ≤ v := hA x (hp1.subset hx)
      rcases List.mem_cons.mp hy with rfl | hy
      · exact hxv
      · exact hxv.trans (hB' y (hp2.subset hy))
  have hpermAll : ((out.take k).insertionSort (fun a b => a ≤ b) ++
        v :: (out.drop (k + 1)).insertionSort (fun a b => a ≤ b)).Perm
      (range.insertionSort (fun a b => a ≤ b)) := by
    refine ((hp1.append (hp2.cons v)).trans ?_).trans
      (hperm.trans (List.perm_insertionSort _ range).symm)
    rw [← hsplit]
  have heq := List.eq_of_perm_of_sorted hpermAll hsorted
    (List.sorted_insertionSort (fun a b : α => a ≤ b) range)
  rw [← heq]
  have hlen : ((out.take k).insertionSort (fun a b => a ≤ b)).length = k := by
    rw [hp1.length_eq, List.length_take]; omega
  rw [List.getElem?_append_right (by omega), hlen]
  simp

/-- For a range of size `n >= 2` the element at the position returned by `median_element`
is the element at offset `(n + 1) / 2` of the ascending-sorted range. -/
theorem median_element_eq_sorted {nth_element : List α → Nat → List α}
    (hn : NthElementSpec nth_element) (range : List α) (h2 : 2 ≤ range.length) :
    ∃ v, (median_element nth_element range).1[(median_element nth_element range).2]? = some v ∧
      (range.insertionSort (fun a b => a ≤ b))[(range.length + 1) / 2]? = some v := by
  have hm : (range.length + 1) / 2 < range.length := by omega
  obtain ⟨hperm, hord⟩ := hn range ((range.length + 1) / 2) hm.le
  have hlt : (range.length + 1) / 2 < (nth_element range ((range.length + 1) / 2)).length := by
    rw [hperm.length_eq]; exact hm
  have hme : median_element nth_element range
      = (nth_element range ((range.length + 1) / 2), (range.length + 1) / 2) := by
    simp only [median_element, Nat.zero_add]
  rw [hme]
  have hget := List.getElem?_eq_getElem hlt
  obtain ⟨hA, hB⟩ := hord _ hget
  exact ⟨_, hget, getElem?_eq_sorted _ range _ _ hperm hget hA hB⟩

/-- Exactly the elements of `lo` are below `v` in `lo ++ mid ++ hi` when `lo` is below,
`mid` equal to and `hi` above `v`. -/
theorem countP_lt_three_way (lo mid hi : List α) (v : α)
    (hlo : ∀ x ∈ lo, x < v) (hmid : ∀ x ∈ mid, x = v) (hhi : ∀ x ∈ hi, v < x) :
    (lo ++ mid ++ hi).countP (fun x => decide (x < v)) = lo.length := by
  have h1 : lo.countP (fun x => decide (x < v)) = lo.length :=
    List.countP_eq_length.mpr (fun a ha => by simpa using hlo a ha)
  have h2 : mid.countP (fun x => decide (x < v)) = 0 :=
    List.countP_eq_zero.mpr (fun a ha => by simpa using (hmid a ha).ge)
  have h3 : hi.countP (fun x => decide (x < v)) = 0 :=
    List.countP_eq_zero.mpr (fun a ha => by simpa using (hhi a ha).le)
  rw [List.countP_append, List.countP_append, h1, h2, h3]
  omega

/-- Exactly the elements of `hi` are above `v` in `lo ++ mid ++ hi` when `lo` is below,
`mid` equal to and `hi` above `v`. -/
theorem countP_gt_three_way (lo mid hi : List α) (v : α)
    (hlo : ∀ x ∈ lo, x < v) (hmid : ∀ x ∈ mid, x = v) (hhi : ∀ x ∈ hi, v < x) :
    (lo ++ mid ++ hi).countP (fun x => decide (v < x)) = hi.length := by
  have h1 : lo.countP (fun x => decide (v < x)) = 0 :=
    List.countP_eq_zero.mpr (fun a ha => by simpa using (hlo a ha).le)
  have h2 : mid.countP (fun x => decide (v < x)) = 0 :=
    List.countP_eq_zero.mpr (fun a ha => by simpa using (hmid a ha).le)
  have h3 : hi.countP (fun x => decide (v < x)) = hi.length :=
    List.countP_eq_length.mpr (fun a ha => by simpa using hhi a ha)
  rw [List.countP_append, List.countP_append, h1, h2, h3]
  omega

/-- An arrangement of `lo ++ mid ++ hi` cannot be split strictly at an offset that falls
inside the block of elements equal to `v`. -/
theorem strict_split_outside_block (q lo mid hi : List α) (v : α) (s : Nat)
    (hperm : q.Perm (lo ++ mid ++ hi))
    (hlo : ∀ x ∈ lo, x < v) (hmid : ∀ x ∈ mid, x = v) (hhi : ∀ x ∈ hi, v < x)
    (hs : s ≤ q.length) (hsplit : ∀ x ∈ q.take s, ∀ y ∈ q.drop s, x < y) :
    s ≤ lo.length ∨ lo.length + mid.length ≤ s := by
  rcases mid with _ | ⟨w, mid'⟩
  · rcases le_total s lo.length with h | h
    · exact Or.inl h
    · exact Or.inr (by simpa using h)
  · have hw : w = v := hmid w (by simp)
    have hvq : v ∈ q := hperm.symm.subset (by simp [hw])
    have hlen : q.length = lo.length + (w :: mid').length + hi.length := by
      have h := hperm.length_eq
      simp only [List.length_append] at h
      exact h
    rw [← List.take_append_drop s q] at hvq
    rcases List.mem_append.mp hvq with hv | hv
    · -- `v` lies left of the split: everything right of it is above `v`
      right
      have hall : (q.drop s).countP (fun x => decide (v < x)) = (q.drop s).length :=
        List.countP_eq_length.mpr (fun a ha => by simpa using hsplit v hv a ha)
      have hle : (q.drop s).countP (fun x => decide (v < x))
          ≤ q.countP (fun x => decide (v < x)) :=
        (List.drop_sublist s q).countP_le _
      rw [hperm.countP_eq, countP_gt_three_way lo _ hi v hlo hmid hhi, hall,
        List.length_drop] at hle
      omega
    · -- `v` lies right of the split: everything left of it is below `v`
      left
      have hall : (q.take s).countP (fun x => decide (x < v)) = (q.take s).length :=
        List.countP_eq_length.mpr (fun a ha => by simpa using hsplit a ha v hv)
      have hle : (q.take s).countP (fun x => decide (x < v))
          ≤ q.countP (fun x => decide (x < v)) :=
        (List.take_sublist s q).countP_le _
      rw [hperm.countP_eq, countP_lt_three_way lo _ hi v hlo hmid hhi, hall,
        List.length_take] at hle
      omega

/-! ## The library's arrangement of `[1, 2, 3, 0, 1, 1]` -/

/-- The function `partitionEqually` uses `std::nth_element` only through the arrangement it
leaves for the offset `(n + 1) / 2`. -/
theorem partitionEqually_congr (nth_element nth_element' : List α → Nat → List α)
    (partition : (α → Bool) → List α → List α × Nat) (range : List α)
    (h : nth_element range ((range.length + 1) / 2)
      = nth_element' range ((range.length + 1) / 2)) :
    partitionEqually nth_element partition range
      = partitionEqually nth_element' partition range := by
  simp only [partitionEqually, median_element, Nat.zero_add, h]

/-- The library's `std::nth_element` on `[1, 2, 3, 0, 1, 1]` with `nth` at offset 3: the
depth limit is `2 * __lg(6) = 4`; the first round leaves `[1, 1, 1, 0, 3, 2]` with cut 4,
past `nth`, the second leaves `[1, 0, 1, 1, 3, 2]` with cut 2, and the two elements of
`[2, 4)` are then insertion sorted.  The fallback `__heap_select` is not reached. -/
theorem libstdcxx_nth_element_example (heap_select : List Nat → Nat → Nat → Nat → List Nat) :
    libstdcxx_nth_element heap_select [1, 2, 3, 0, 1, 1] 3 = [1, 0, 1, 1, 3, 2] := by
  have e1 : lgAux 6 6 * 2 = 4 := by decide
  have e2 : unguarded_partition_pivot ([1, 2, 3, 0, 1, 1] : List Nat) 0 6
      = ([1, 1, 1, 0, 3, 2], 4) := by decide
  have e3 : unguarded_partition_pivot ([1, 1, 1, 0, 3, 2] : List Nat) 0 4
      = ([1, 0, 1, 1, 3, 2], 2) := by decide
  have e4 : insertion_sort ([1, 0, 1, 1, 3, 2] : List Nat) 2 4 = [1, 0, 1, 1, 3, 2] := by
    decide
  simp [libstdcxx_nth_element, introselect, e1, e2, e3, e4]

end OrderStatisticsProofs

section OrderStatisticsClaims

variable {α : Type} [LinearOrder α]

/-- C1: for every range with at least two elements, `partitionEqually` returns a split
point `s` such that every element of `[begin, s)` is strictly less than every element of
`[s, end)` (vacuously when `s` is the end position). -/
theorem partitionEqually_left_lt_right {nth_element : List α → Nat → List α}
    {partition : (α → Bool) → List α → List α × Nat}
    (hn : NthElementSpec nth_element) (hp : PartitionSpec partition)
    (range : List α) (h2 : 2 ≤ range.length) :
    ∃ out s, partitionEqually nth_element partition range = some (out, s) ∧
      out.length = range.length ∧ s ≤ out.length ∧
      ∀ x ∈ out.take s, ∀ y ∈ out.drop s, x < y := by
  obtain ⟨lo, mid, hi, v, -, hperm, hlo, hmid, hhi, -, -, heq⟩ :=
    partitionEqually_shape hn hp range h2
  refine ⟨_, _, heq, hperm.length_eq, ?_, ?_⟩
  · simp only [List.length_append]
    split_ifs <;> omega
  · have hright : ∀ x ∈ lo ++ mid, ∀ y ∈ hi, x < y := by
      intro x hx y hy
      rcases List.mem_append.mp hx with hx | hx
      · exact (hlo x hx).trans (hhi y hy)
      · rw [hmid x hx]; exact hhi y hy
    have hleft : ∀ x ∈ lo, ∀ y ∈ mid ++ hi, x < y := by
      intro x hx y hy
      rcases List.mem_append.mp hy with hy | hy
      · rw [hmid y hy]; exact hlo x hx
      · exact (hlo x hx).trans (hhi y hy)
    split_ifs
    · rw [take_lo_mid, drop_lo_mid]; exact hright
    · rw [take_lo, drop_lo]; exact hleft
    · rw [take_lo_mid, drop_lo_mid]; exact hright

/-- Witness for C1: quickselect and the stable partition on `[5, 3, 8, 1, 9, 2, 7]`. -/
theorem partitionEqually_left_lt_right_witness :
    2 ≤ ([5, 3, 8, 1, 9, 2, 7] : List Nat).length ∧
    ∃ out s, partitionEqually quickselect stablePartition ([5, 3, 8, 1, 9, 2, 7] : List Nat)
        = some (out, s) ∧
      out.length = ([5, 3, 8, 1, 9, 2, 7] : List Nat).length ∧ s ≤ out.length ∧
      ∀ x ∈ out.take s, ∀ y ∈ out.drop s, x < y :=
  ⟨by decide, partitionEqually_left_lt_right quickselect_spec stablePartition_spec
    [5, 3, 8, 1, 9, 2, 7] (by decide)⟩

/-- C2: for every range with at least two elements the split point returned by
`partitionEqually` is strictly after the start of the range: the left part is not empty. -/
theorem partitionEqually_left_nonempty {nth_element : List α → Nat → List α}
    {partition : (α → Bool) → List α → List α × Nat}
    (hn : NthElementSpec nth_element) (hp : PartitionSpec partition)
    (range : List α) (h2 : 2 ≤ range.length) :
    ∃ out s, partitionEqually nth_element partition range = some (out, s) ∧
      0 < s ∧ (out.take s).length = s := by
  obtain ⟨lo, mid, hi, v, -, hperm, -, -, -, hl, hr, heq⟩ :=
    partitionEqually_shape hn hp range h2
  refine ⟨_, _, heq, ?_, ?_⟩
  · split_ifs <;> omega
  · simp only [List.length_take, List.length_append]
    split_ifs <;> omega

/-- Witness for C2: quickselect and the stable partition on `[2, 2, 1, 2]`. -/
theorem partitionEqually_left_nonempty_witness :
    2 ≤ ([2, 2, 1, 2] : List Nat).length ∧
    ∃ out s, partitionEqually quickselect stablePartition ([2, 2, 1, 2] : List Nat)
        = some (out, s) ∧ 0 < s ∧ (out.take s).length = s :=
  ⟨by decide, partitionEqually_left_nonempty quickselect_spec stablePartition_spec
    [2, 2, 1, 2] (by decide)⟩

/-- C3: for every range with at least two elements, all of them equal, `partitionEqually`
returns the end position of the range. -/
theorem partitionEqually_all_equal {nth_element : List α → Nat → List α}
    {partition : (α → Bool) → List α → List α × Nat}
    (hn : NthElementSpec nth_element) (hp : PartitionSpec partition)
    (range : List α) (h2 : 2 ≤ range.length) (hall : ∀ x ∈ range, ∀ y ∈ range, x = y) :
    ∃ out, partitionEqually nth_element partition range = some (out, range.length) := by
  obtain ⟨lo, mid, hi, v, -, hperm, hlo, hmid, hhi, hl, hr, heq⟩ :=
    partitionEqually_shape hn hp range h2
  have hmidpos : 0 < mid.length := by omega
  obtain ⟨w, hw⟩ := List.exists_mem_of_length_pos hmidpos
  have hvmem : v ∈ range := by
    rw [← hmid w hw]
    exact hperm.subset (by simp [hw])
  have hlonil : lo = [] := by
    rcases lo with _ | ⟨a, t⟩
    · rfl
    · exfalso
      have ha : a ∈ range := hperm.subset (by simp)
      exact absurd (hall a ha v hvmem) (ne_of_lt (hlo a (by simp)))
  have hhinil : hi = [] := by
    rcases hi with _ | ⟨a, t⟩
    · rfl
    · exfalso
      have ha : a ∈ range := hperm.subset (by simp)
      exact absurd (hall v hvmem a ha) (ne_of_lt (hhi a (by simp)))
  subst hlonil hhinil
  have hlen : mid.length = range.length := by simpa using hperm.length_eq
  refine ⟨[] ++ mid ++ [], ?_⟩
  rw [heq]
  simp [hlen]

/-- Witness for C3: quickselect and the stable partition on `[4, 4, 4]`. -/
theorem partitionEqually_all_equal_witness :
    2 ≤ ([4, 4, 4] : List Nat).length ∧ (∀ x ∈ ([4, 4, 4] : List Nat), ∀ y ∈ [4, 4, 4], x = y) ∧
    ∃ out, partitionEqually quickselect stablePartition ([4, 4, 4] : List Nat)
      = some (out, ([4, 4, 4] : List Nat).length) :=
  ⟨by decide, by decide, partitionEqually_all_equal quickselect_spec stablePartition_spec
    [4, 4, 4] (by decide) (by decide)⟩

/-- C4, counterexample: with the library's `std::nth_element` and `std::partition`
(whatever `__heap_select` is, the depth limit is not used up) `nth_element` leaves
`[1, 2, 3, 0, 1, 1]` as `[1, 0, 1, 1, 3, 2]`, which meets the standard's postcondition at
offset 3, and `partitionEqually` leaves it as `[0, 1, 1, 1, 3, 2]` and returns offset 4,
which is not the end position; the element stored there is 3, and the element 2 after it
does not compare `>=` to it.  What holds there is the amended bound: the elements left of the
split are `<=` 3 and those from it on are `>=` the median value 1. -/
theorem partitionEqually_element_after_split_smaller :
    (∀ heap_select : List Nat → Nat → Nat → Nat → List Nat,
      libstdcxx_nth_element heap_select [1, 2, 3, 0, 1, 1] 3 = [1, 0, 1, 1, 3, 2] ∧
      partitionEqually (libstdcxx_nth_element heap_select) libstdcxx_partition
        ([1, 2, 3, 0, 1, 1] : List Nat) = some ([0, 1, 1, 1, 3, 2], 4)) ∧
    (([1, 0, 1, 1, 3, 2] : List Nat).Perm [1, 2, 3, 0, 1, 1] ∧
      (∀ x ∈ ([1, 0, 1, 1, 3, 2] : List Nat).take 3, x ≤ 1) ∧
      (∀ y ∈ ([1, 0, 1, 1, 3, 2] : List Nat).drop 3, 1 ≤ y)) ∧
    4 < ([0, 1, 1, 1, 3, 2] : List Nat).length ∧
    ([0, 1, 1, 1, 3, 2] : List Nat)[4]? = some 3 ∧
    ¬ (∀ y ∈ ([0, 1, 1, 1, 3, 2] : List Nat).drop 4, 3 ≤ y) ∧
    (∀ x ∈ ([0, 1, 1, 1, 3, 2] : List Nat).take 4, x ≤ 3) ∧
    (∀ y ∈ ([0, 1, 1, 1, 3, 2] : List Nat).drop 4, 1 ≤ y) := by
  refine ⟨fun heap_select => ⟨libstdcxx_nth_element_example heap_select, ?_⟩,
    ⟨by decide, by decide, by decide⟩, by decide, by decide, by decide, by decide,
    by decide⟩
  rw [partitionEqually_congr _ (fun _ _ => [1, 0, 1, 1, 3, 2]) _ _
    (libstdcxx_nth_element_example heap_select)]
  decide

/-- C4, amended: for every range with at least two elements `partitionEqually` returns a
split point `s`, and when `s` is not the end position, every element left of `s` compares
`<=` the element stored at `s`, and every element at or after `s` compares `>=` the median
value `v` read at the median position, which is itself `<=` the element stored at `s`. -/
theorem partitionEqually_split_element {nth_element : List α → Nat → List α}
    {partition : (α → Bool) → List α → List α × Nat}
    (hn : NthElementSpec nth_element) (hp : PartitionSpec partition)
    (range : List α) (h2 : 2 ≤ range.length) :
    ∃ out s v, partitionEqually nth_element partition range = some (out, s) ∧
      (median_element nth_element range).1[(median_element nth_element range).2]? = some v ∧
      ∀ e, out[s]? = some e →
        (∀ x ∈ out.take s, x ≤ e) ∧ v ≤ e ∧ (∀ y ∈ out.drop s, v ≤ y) := by
  obtain ⟨lo, mid, hi, v, hv, hperm, hlo, hmid, hhi, -, -, heq⟩ :=
    partitionEqually_shape hn hp range h2
  refine ⟨_, _, v, heq, hv, ?_⟩
  have hbelow : ∀ x ∈ lo ++ mid, x ≤ v := by
    intro x hx
    rcases List.mem_append.mp hx with hx | hx
    · exact (hlo x hx).le
    · exact (hmid x hx).le
  have habove : ∀ y ∈ mid ++ hi, v ≤ y := by
    intro y hy
    rcases List.mem_append.mp hy with hy | hy
    · exact (hmid y hy).ge
    · exact (hhi y hy).le
  have key : ∀ s : Nat,
      (∀ x ∈ (lo ++ mid ++ hi).take s, x ≤ v) → (∀ y ∈ (lo ++ mid ++ hi).drop s, v ≤ y) →
      ∀ e, (lo ++ mid ++ hi)[s]? = some e →
        (∀ x ∈ (lo ++ mid ++ hi).take s, x ≤ e) ∧ v ≤ e ∧
        (∀ y ∈ (lo ++ mid ++ hi).drop s, v ≤ y) := by
    intro s h1 h2 e he
    have hemem : e ∈ (lo ++ mid ++ hi).drop s := by
      rw [List.mem_iff_getElem?]
      exact ⟨0, by rw [List.getElem?_drop]; simpa using he⟩
    have hve : v ≤ e := h2 e hemem
    exact ⟨fun x hx => (h1 x hx).trans hve, hve, h2⟩
  split_ifs
  · apply key
    · rw [take_lo_mid]; exact hbelow
    · rw [drop_lo_mid]; exact fun y hy => (hhi y hy).le
  · apply key
    · rw [take_lo]; exact fun x hx => (hlo x hx).le
    · rw [drop_lo]; exact habove
  · apply key
    · rw [take_lo_mid]; exact hbelow
    · rw [drop_lo_mid]; exact fun y hy => (hhi y hy).le

/-- Witness for C4 as amended: quickselect and the stable partition on
`[1, 1, 1, 1, 3, 2]`. -/
theorem partitionEqually_split_element_witness :
    2 ≤ ([1, 1, 1, 1, 3, 2] : List Nat).length ∧
    ∃ out s v, partitionEqually quickselect stablePartition ([1, 1, 1, 1, 3, 2] : List Nat)
        = some (out, s) ∧
      (median_element quickselect ([1, 1, 1, 1, 3, 2] : List Nat)).1[
        (median_element quickselect ([1, 1, 1, 1, 3, 2] : List Nat)).2]? = some v ∧
      ∀ e, out[s]? = some e →
        (∀ x ∈ out.take s, x ≤ e) ∧ v ≤ e ∧ (∀ y ∈ out.drop s, v ≤ y) :=
  ⟨by decide, partitionEqually_split_element quickselect_spec stablePartition_spec
    [1, 1, 1, 1, 3, 2] (by decide)⟩

/-- C5: for every range of size `n >= 2`, `partitionEqually` returns a split offset `s`
with `0 <= s <= n`, and the sizes `s` and `n - s` of the two parts differ by at most the
number of occurrences in the range of the median value `v`, the value found at offset
`(n + 1) / 2` after `median_element`: `|n - 2 * s| <= count v`. -/
theorem partitionEqually_balance {nth_element : List α → Nat → List α}
    {partition : (α → Bool) → List α → List α × Nat}
    (hn : NthElementSpec nth_element) (hp : PartitionSpec partition)
    (range : List α) (h2 : 2 ≤ range.length) :
    ∃ out s v, partitionEqually nth_element partition range = some (out, s) ∧
      (median_element nth_element range).1[(range.length + 1) / 2]? = some v ∧
      s ≤ range.length ∧
      |(range.length : Int) - 2 * (s : Int)| ≤ (range.count v : Int) := by
  obtain ⟨lo, mid, hi, v, hv, hperm, hlo, hmid, hhi, hl, hr, heq⟩ :=
    partitionEqually_shape hn hp range h2
  have hcount : range.count v = mid.length := by
    rw [← hperm.count_eq]; exact count_three_way lo mid hi v hlo hmid hhi
  have hlen : lo.length + mid.length + hi.length = range.length := by
    have h := hperm.length_eq
    simp only [List.length_append] at h
    exact h
  have hv' : (median_element nth_element range).1[(range.length + 1) / 2]? = some v := by
    simpa [median_element] using hv
  refine ⟨_, _, v, heq, hv', ?_, ?_⟩
  · split_ifs <;> omega
  · rw [hcount, abs_le]
    split_ifs <;> constructor <;> push_cast <;> omega

/-- Witness for C5: quickselect and the stable partition on `[2, 7, 2, 2, 9, 2, 1]`. -/
theorem partitionEqually_balance_witness :
    2 ≤ ([2, 7, 2, 2, 9, 2, 1] : List Nat).length ∧
    ∃ out s v, partitionEqually quickselect stablePartition ([2, 7, 2, 2, 9, 2, 1] : List Nat)
        = some (out, s) ∧
      (median_element quickselect ([2, 7, 2, 2, 9, 2, 1] : List Nat)).1[
        (([2, 7, 2, 2, 9, 2, 1] : List Nat).length + 1) / 2]? = some v ∧
      s ≤ ([2, 7, 2, 2, 9, 2, 1] : List Nat).length ∧
      |(([2, 7, 2, 2, 9, 2, 1] : List Nat).length : Int) - 2 * (s : Int)|
        ≤ ((([2, 7, 2, 2, 9, 2, 1] : List Nat).count v : Nat) : Int) :=
  ⟨by decide, partitionEqually_balance quickselect_spec stablePartition_spec
    [2, 7, 2, 2, 9, 2, 1] (by decide)⟩

/-- C6: for every range of size `n >= 2`, `median_element` returns the position at offset
`(n + 1) / 2`, which lies inside the range, the range is only reordered, and after the call
every element before that position is `<=` the element at it and every element after it is
`>=` the element at it. -/
theorem median_element_ordering {nth_element : List α → Nat → List α}
    (hn : NthElementSpec nth_element) (range : List α) (h2 : 2 ≤ range.length) :
    (median_element nth_element range).2 = (range.length + 1) / 2 ∧
    (range.length + 1) / 2 < range.length ∧
    (median_element nth_element range).1.Perm range ∧
    ∃ v, (median_element nth_element range).1[(range.length + 1) / 2]? = some v ∧
      (∀ x ∈ (median_element nth_element range).1.take ((range.length + 1) / 2), x ≤ v) ∧
      (∀ y ∈ (median_element nth_element range).1.drop ((range.length + 1) / 2 + 1), v ≤ y) := by
  have hm : (range.length + 1) / 2 < range.length := by omega
  obtain ⟨hperm, hord⟩ := hn range ((range.length + 1) / 2) hm.le
  have hlt : (range.length + 1) / 2 < (nth_element range ((range.length + 1) / 2)).length := by
    rw [hperm.length_eq]; exact hm
  have hme : median_element nth_element range
      = (nth_element range ((range.length + 1) / 2), (range.length + 1) / 2) := by
    simp only [median_element, Nat.zero_add]
  rw [hme]
  refine ⟨rfl, hm, hperm, _, List.getElem?_eq_getElem hlt, ?_⟩
  obtain ⟨hA, hB⟩ := hord _ (List.getElem?_eq_getElem hlt)
  refine ⟨hA, fun y hy => hB y ?_⟩
  rw [← List.drop_drop 1] at hy
  exact List.mem_of_mem_drop hy

/-- Witness for C6: quickselect on `[5, 3, 8, 1, 9, 2]`. -/
theorem median_element_ordering_witness :
    2 ≤ ([5, 3, 8, 1, 9, 2] : List Nat).length ∧
    (median_element quickselect ([5, 3, 8, 1, 9, 2] : List Nat)).2
      = (([5, 3, 8, 1, 9, 2] : List Nat).length + 1) / 2 ∧
    (([5, 3, 8, 1, 9, 2] : List Nat).length + 1) / 2 < ([5, 3, 8, 1, 9, 2] : List Nat).length ∧
    (median_element quickselect ([5, 3, 8, 1, 9, 2] : List Nat)).1.Perm [5, 3, 8, 1, 9, 2] ∧
    ∃ v, (median_element quickselect ([5, 3, 8, 1, 9, 2] : List Nat)).1[
        (([5, 3, 8, 1, 9, 2] : List Nat).length + 1) / 2]? = some v ∧
      (∀ x ∈ (median_element quickselect ([5, 3, 8, 1, 9, 2] : List Nat)).1.take
        ((([5, 3, 8, 1, 9, 2] : List Nat).length + 1) / 2), x ≤ v) ∧
      (∀ y ∈ (median_element quickselect ([5, 3, 8, 1, 9, 2] : List Nat)).1.drop
        ((([5, 3, 8, 1, 9, 2] : List Nat).length + 1) / 2 + 1), v ≤ y) :=
  ⟨by decide, median_element_ordering quickselect_spec [5, 3, 8, 1, 9, 2] (by decide)⟩

/-- C7, the code at the failing input `[1, 2, 3]`: whatever conforming `std::nth_element` is
used, `median_element` returns offset 2 and the element there is 3, the largest element,
while the median of the range, `sorted[(3 - 1) / 2]`, is 2. -/
theorem median_element_of_three_is_maximum :
    (∀ nth_element : List Nat → Nat → List Nat, NthElementSpec nth_element →
      (median_element nth_element [1, 2, 3]).2 = 2 ∧
      (median_element nth_element [1, 2, 3]).1[(median_element nth_element [1, 2, 3]).2]?
        = some 3) ∧
    (([1, 2, 3] : List Nat).insertionSort (fun a b => a ≤ b))[(3 - 1) / 2]? = some 2 := by
  refine ⟨fun nth_element hn => ⟨by simp [median_element], ?_⟩, by decide⟩
  obtain ⟨v, hv, hs⟩ := median_element_eq_sorted hn [1, 2, 3] (by decide)
  rw [hv, ← hs]
  decide

/-- C13: `partitionEqually` splits as equally as possible: for every range of size `n >= 2`
it returns a split offset `s*` such that for every offset `s` with `0 < s < n` at which a
strict split exists (the `s` smallest elements are all strictly less than the remaining
`n - s`), `|n - 2 * s*| <= |n - 2 * s|`.  (When all elements are equal no such `s` exists.) -/
theorem partitionEqually_most_balanced {nth_element : List α → Nat → List α}
    {partition : (α → Bool) → List α → List α × Nat}
    (hn : NthElementSpec nth_element) (hp : PartitionSpec partition)
    (range : List α) (h2 : 2 ≤ range.length) :
    ∃ out sStar, partitionEqually nth_element partition range = some (out, sStar) ∧
      ∀ s, 0 < s → s < range.length →
        (∀ x ∈ (range.insertionSort (fun a b => a ≤ b)).take s,
          ∀ y ∈ (range.insertionSort (fun a b => a ≤ b)).drop s, x < y) →
        |(range.length : Int) - 2 * (sStar : Int)| ≤ |(range.length : Int) - 2 * (s : Int)| := by
  obtain ⟨lo, mid, hi, v, -, hperm, hlo, hmid, hhi, hl, hr, heq⟩ :=
    partitionEqually_shape hn hp range h2
  refine ⟨_, _, heq, ?_⟩
  intro s hs0 hsn hsplit
  have hlen : lo.length + mid.length + hi.length = range.length := by
    have h := hperm.length_eq
    simp only [List.length_append] at h
    exact h
  have hq : (range.insertionSort (fun a b => a ≤ b)).Perm (lo ++ mid ++ hi) :=
    (List.perm_insertionSort _ range).trans hperm.symm
  have hqlen : (range.insertionSort (fun a b => a ≤ b)).length = range.length :=
    (List.perm_insertionSort _ range).length_eq
  have hout := strict_split_outside_block _ lo mid hi v s hq hlo hmid hhi (by omega) hsplit
  split_ifs with h0 h1
  · rcases abs_cases ((range.length : Int) - 2 * ((lo.length + mid.length : Nat) : Int))
      with ⟨e1, f1⟩ | ⟨e1, f1⟩ <;>
    rcases abs_cases ((range.length : Int) - 2 * (s : Int)) with ⟨e2, f2⟩ | ⟨e2, f2⟩ <;>
    rw [e1, e2] <;> push_cast at f1 ⊢ <;> omega
  · rcases abs_cases ((range.length : Int) - 2 * (lo.length : Int)) with ⟨e1, f1⟩ | ⟨e1, f1⟩ <;>
    rcases abs_cases ((range.length : Int) - 2 * (s : Int)) with ⟨e2, f2⟩ | ⟨e2, f2⟩ <;>
    rw [e1, e2] <;> omega
  · rcases abs_cases ((range.length : Int) - 2 * ((lo.length + mid.length : Nat) : Int))
      with ⟨e1, f1⟩ | ⟨e1, f1⟩ <;>
    rcases abs_cases ((range.length : Int) - 2 * (s : Int)) with ⟨e2, f2⟩ | ⟨e2, f2⟩ <;>
    rw [e1, e2] <;> push_cast at f1 ⊢ <;> omega

/-- Witness for C13: quickselect and the stable partition on `[2, 7, 2, 2, 9, 2, 1]`. -/
theorem partitionEqually_most_balanced_witness :
    2 ≤ ([2, 7, 2, 2, 9, 2, 1] : List Nat).length ∧
    ∃ out sStar, partitionEqually quickselect stablePartition ([2, 7, 2, 2, 9, 2, 1] : List Nat)
        = some (out, sStar) ∧
      ∀ s, 0 < s → s < ([2, 7, 2, 2, 9, 2, 1] : List Nat).length →
        (∀ x ∈ (([2, 7, 2, 2, 9, 2, 1] : List Nat).insertionSort (fun a b => a ≤ b)).take s,
          ∀ y ∈ (([2, 7, 2, 2, 9, 2, 1] : List Nat).insertionSort (fun a b => a ≤ b)).drop s,
            x < y) →
        |(([2, 7, 2, 2, 9, 2, 1] : List Nat).length : Int) - 2 * (sStar : Int)|
          ≤ |(([2, 7, 2, 2, 9, 2, 1] : List Nat).length : Int) - 2 * (s : Int)| :=
  ⟨by decide, partitionEqually_most_balanced quickselect_spec stablePartition_spec
    [2, 7, 2, 2, 9, 2, 1] (by decide)⟩

/-- C15: tie-break of `partitionEqually`.  For every range of size `n >= 2`, with `m` the
median position `(n + 1) / 2`, `v` the median value, `L` the number of elements below `v`
and `R` equal to `L` plus the number of occurrences of `v`: after the two partition passes
the elements equal to `v` occupy exactly `[L, R)`, a run that contains `m`, and whenever `L`
is not the start of the range the function returns `L` if `m - L <= R - m` and `R`
otherwise, i.e. the candidate closer to `m`, and `L` when the distances are equal. -/
theorem partitionEqually_tie_break {nth_element : List α → Nat → List α}
    {partition : (α → Bool) → List α → List α × Nat}
    (hn : NthElementSpec nth_element) (hp : PartitionSpec partition)
    (range : List α) (h2 : 2 ≤ range.length) :
    ∃ out s v L R, partitionEqually nth_element partition range = some (out, s) ∧
      (median_element nth_element range).1[(range.length + 1) / 2]? = some v ∧
      L = range.countP (fun x => decide (x < v)) ∧ R = L + range.count v ∧
      (∀ x ∈ out.take L, x < v) ∧ (∀ x ∈ (out.drop L).take (R - L), x = v) ∧
      (∀ x ∈ out.drop R, v < x) ∧
      L ≤ (range.length + 1) / 2 ∧ (range.length + 1) / 2 < R ∧ R ≤ range.length ∧
      (L ≠ 0 →
        (s = if (range.length + 1) / 2 - L ≤ R - (range.length + 1) / 2 then L else R) ∧
        (s = L ↔ (range.length + 1) / 2 - L ≤ R - (range.length + 1) / 2)) := by
  obtain ⟨lo, mid, hi, v, hv, hperm, hlo, hmid, hhi, hl, hr, heq⟩ :=
    partitionEqually_shape hn hp range h2
  have hcount : range.count v = mid.length := by
    rw [← hperm.count_eq]; exact count_three_way lo mid hi v hlo hmid hhi
  have hcountP : range.countP (fun x => decide (x < v)) = lo.length := by
    rw [← hperm.countP_eq]; exact countP_lt_three_way lo mid hi v hlo hmid hhi
  have hlen : lo.length + mid.length + hi.length = range.length := by
    have h := hperm.length_eq
    simp only [List.length_append] at h
    exact h
  have hv' : (median_element nth_element range).1[(range.length + 1) / 2]? = some v := by
    simpa [median_element] using hv
  refine ⟨_, _, v, lo.length, lo.length + mid.length, heq, hv', hcountP.symm, by rw [hcount],
    ?_, ?_, ?_, hl, hr, by omega, ?_⟩
  · rw [take_lo]; exact hlo
  · rw [drop_lo, Nat.add_sub_cancel_left, List.take_left' rfl]; exact hmid
  · rw [drop_lo_mid]; exact hhi
  · intro hL
    rw [if_neg hL]
    constructor
    · rfl
    · split_ifs with h1
      · exact ⟨fun _ => h1, fun _ => rfl⟩
      · constructor
        · intro h; omega
        · intro h; exact absurd h h1

/-- Witness for C15: quickselect and the stable partition on `[1, 2, 2, 2, 2, 3, 0]`. -/
theorem partitionEqually_tie_break_witness :
    2 ≤ ([1, 2, 2, 2, 2, 3, 0] : List Nat).length ∧
    ∃ out s v L R, partitionEqually quickselect stablePartition
        ([1, 2, 2, 2, 2, 3, 0] : List Nat) = some (out, s) ∧
      (median_element quickselect ([1, 2, 2, 2, 2, 3, 0] : List Nat)).1[
        (([1, 2, 2, 2, 2, 3, 0] : List Nat).length + 1) / 2]? = some v ∧
      L = ([1, 2, 2, 2, 2, 3, 0] : List Nat).countP (fun x => decide (x < v)) ∧
      R = L + ([1, 2, 2, 2, 2, 3, 0] : List Nat).count v ∧
      (∀ x ∈ out.take L, x < v) ∧ (∀ x ∈ (out.drop L).take (R - L), x = v) ∧
      (∀ x ∈ out.drop R, v < x) ∧
      L ≤ (([1, 2, 2, 2, 2, 3, 0] : List Nat).length + 1) / 2 ∧
      (([1, 2, 2, 2, 2, 3, 0] : List Nat).length + 1) / 2 < R ∧
      R ≤ ([1, 2, 2, 2, 2, 3, 0] : List Nat).length ∧
      (L ≠ 0 →
        (s = if (([1, 2, 2, 2, 2, 3, 0] : List Nat).length + 1) / 2 - L
            ≤ R - (([1, 2, 2, 2, 2, 3, 0] : List Nat).length + 1) / 2 then L else R) ∧
        (s = L ↔ (([1, 2, 2, 2, 2, 3, 0] : List Nat).length + 1) / 2 - L
            ≤ R - (([1, 2, 2, 2, 2, 3, 0] : List Nat).length + 1) / 2)) :=
  ⟨by decide, partitionEqually_tie_break quickselect_spec stablePartition_spec
    [1, 2, 2, 2, 2, 3, 0] (by decide)⟩

/-- C16, the code at the failing input `[5]`: whatever conforming `std::nth_element` is
used, on the one-element range `median_element` returns offset `(1 + 1) / 2 = 1`, which is
the end position and not less than the size; there is no element at it, and
`partitionEqually` reads the past-the-end position. -/
theorem median_element_of_singleton_is_end :
    (∀ nth_element : List Nat → Nat → List Nat, NthElementSpec nth_element →
      (median_element nth_element [5]).2 = 1 ∧
      (median_element nth_element [5]).1.length = 1 ∧
      (median_element nth_element [5]).1[(median_element nth_element [5]).2]? = none ∧
      ∀ partition : (Nat → Bool) → List Nat → List Nat × Nat,
        partitionEqually nth_element partition [5] = none) ∧
    ¬ ((([5] : List Nat).length + 1) / 2 < ([5] : List Nat).length) := by
  refine ⟨fun nth_element hn => ?_, by decide⟩
  have hlen : (nth_element [5] 1).length = 1 := (hn [5] 1 (by decide)).1.length_eq
  refine ⟨by simp [median_element], by simpa [median_element] using hlen, ?_, ?_⟩
  · simp only [median_element, List.length_singleton, Nat.zero_add]
    exact List.getElem?_eq_none (by rw [hlen])
  · intro partition
    exact partitionEqually_short partition hn [5] (by decide)

/-- C17: for every range of size `n >= 2`, `partitionEqually` returns the end position only
if all elements of the range are equal; when the range holds two distinct values the split
point is interior, so that both `[begin, split)` and `[split, end)` are non-empty. -/
theorem partitionEqually_end_only_if_all_equal {nth_element : List α → Nat → List α}
    {partition : (α → Bool) → List α → List α × Nat}
    (hn : NthElementSpec nth_element) (hp : PartitionSpec partition)
    (range : List α) (h2 : 2 ≤ range.length) :
    ∃ out s, partitionEqually nth_element partition range = some (out, s) ∧
      out.length = range.length ∧
      (s = range.length → ∀ x ∈ range, ∀ y ∈ range, x = y) ∧
      ((∃ x ∈ range, ∃ y ∈ range, x ≠ y) →
        0 < s ∧ s < range.length ∧ out.take s ≠ [] ∧ out.drop s ≠ []) := by
  obtain ⟨lo, mid, hi, v, -, hperm, hlo, hmid, hhi, hl, hr, heq⟩ :=
    partitionEqually_shape hn hp range h2
  have hlen : lo.length + mid.length + hi.length = range.length := by
    have h := hperm.length_eq
    simp only [List.length_append] at h
    exact h
  have hend : (if lo.length = 0 then lo.length + mid.length
      else if (range.length + 1) / 2 - lo.length
          ≤ lo.length + mid.length - (range.length + 1) / 2 then lo.length
      else lo.length + mid.length) = range.length → ∀ x ∈ range, ∀ y ∈ range, x = y := by
    intro hs
    have hlo0 : lo.length = 0 := by
      split_ifs at hs <;> omega
    have hhi0 : hi.length = 0 := by
      rw [if_pos hlo0] at hs
      omega
    have hlonil : lo = [] := List.length_eq_zero.mp hlo0
    have hhinil : hi = [] := List.length_eq_zero.mp hhi0
    subst hlonil hhinil
    intro x hx y hy
    have hx' : x ∈ mid := by simpa using hperm.symm.subset hx
    have hy' : y ∈ mid := by simpa using hperm.symm.subset hy
    rw [hmid x hx', hmid y hy']
  refine ⟨_, _, heq, hperm.length_eq, hend, ?_⟩
  rintro ⟨x, hx, y, hy, hxy⟩
  have hne : (if lo.length = 0 then lo.length + mid.length
      else if (range.length + 1) / 2 - lo.length
          ≤ lo.length + mid.length - (range.length + 1) / 2 then lo.length
      else lo.length + mid.length) ≠ range.length :=
    fun h => hxy (hend h x hx y hy)
  have hpos : 0 < (if lo.length = 0 then lo.length + mid.length
      else if (range.length + 1) / 2 - lo.length
          ≤ lo.length + mid.length - (range.length + 1) / 2 then lo.length
      else lo.length + mid.length) := by
    split_ifs <;> omega
  have hlt : (if lo.length = 0 then lo.length + mid.length
      else if (range.length + 1) / 2 - lo.length
          ≤ lo.length + mid.length - (range.length + 1) / 2 then lo.length
      else lo.length + mid.length) < range.length := by
    refine lt_of_le_of_ne ?_ hne
    split_ifs <;> omega
  refine ⟨hpos, hlt, ?_, ?_⟩
  · intro h
    have := congrArg List.length h
    simp only [List.length_take, List.length_append, List.length_nil] at this
    omega
  · intro h
    have := congrArg List.length h
    simp only [List.length_drop, List.length_append, List.length_nil] at this
    omega

/-- Witness for C17: quickselect and the stable partition on `[3, 3, 3, 1]`. -/
theorem partitionEqually_end_only_if_all_equal_witness :
    2 ≤ ([3, 3, 3, 1] : List Nat).length ∧
    ∃ out s, partitionEqually quickselect stablePartition ([3, 3, 3, 1] : List Nat)
        = some (out, s) ∧
      out.length = ([3, 3, 3, 1] : List Nat).length ∧
      (s = ([3, 3, 3, 1] : List Nat).length →
        ∀ x ∈ ([3, 3, 3, 1] : List Nat), ∀ y ∈ ([3, 3, 3, 1] : List Nat), x = y) ∧
      ((∃ x ∈ ([3, 3, 3, 1] : List Nat), ∃ y ∈ ([3, 3, 3, 1] : List Nat), x ≠ y) →
        0 < s ∧ s < ([3, 3, 3, 1] : List Nat).length ∧ out.take s ≠ [] ∧ out.drop s ≠ []) :=
  ⟨by decide, partitionEqually_end_only_if_all_equal quickselect_spec stablePartition_spec
    [3, 3, 3, 1] (by decide)⟩

/-- C18: `median_element` and `partitionEqually` only reorder: for every range of size
`n >= 2` both return, and the sequence of elements after either call is a permutation of the
sequence before it, with the same length and the same number of occurrences of every
value. -/
theorem reorder_only {nth_element : List α → Nat → List α}
    {partition : (α → Bool) → List α → List α × Nat}
    (hn : NthElementSpec nth_element) (hp : PartitionSpec partition)
    (range : List α) (h2 : 2 ≤ range.length) :
    ((median_element nth_element range).1.Perm range ∧
      (median_element nth_element range).1.length = range.length ∧
      ∀ a, (median_element nth_element range).1.count a = range.count a) ∧
    ∃ out s, partitionEqually nth_element partition range = some (out, s) ∧
      out.Perm range ∧ out.length = range.length ∧ ∀ a, out.count a = range.count a := by
  obtain ⟨lo, mid, hi, v, -, hperm, -, -, -, -, -, heq⟩ :=
    partitionEqually_shape hn hp range h2
  have hm : (range.length + 1) / 2 ≤ range.length := by omega
  have hperm1 : (median_element nth_element range).1.Perm range := by
    simpa [median_element] using (hn range ((range.length + 1) / 2) hm).1
  exact ⟨⟨hperm1, hperm1.length_eq, fun a => hperm1.count_eq a⟩,
    _, _, heq, hperm, hperm.length_eq, fun a => hperm.count_eq a⟩

/-- Witness for C18: quickselect and the stable partition on `[5, 3, 8, 1, 9, 2, 7]`. -/
theorem reorder_only_witness :
    2 ≤ ([5, 3, 8, 1, 9, 2, 7] : List Nat).length ∧
    ((median_element quickselect ([5, 3, 8, 1, 9, 2, 7] : List Nat)).1.Perm
        [5, 3, 8, 1, 9, 2, 7] ∧
      (median_element quickselect ([5, 3, 8, 1, 9, 2, 7] : List Nat)).1.length
        = ([5, 3, 8, 1, 9, 2, 7] : List Nat).length ∧
      ∀ a, (median_element quickselect ([5, 3, 8, 1, 9, 2, 7] : List Nat)).1.count a
        = ([5, 3, 8, 1, 9, 2, 7] : List Nat).count a) ∧
    ∃ out s, partitionEqually quickselect stablePartition ([5, 3, 8, 1, 9, 2, 7] : List Nat)
        = some (out, s) ∧
      out.Perm [5, 3, 8, 1, 9, 2, 7] ∧ out.length = ([5, 3, 8, 1, 9, 2, 7] : List Nat).length ∧
      ∀ a, out.count a = ([5, 3, 8, 1, 9, 2, 7] : List Nat).count a :=
  ⟨by decide, reorder_only quickselect_spec stablePartition_spec
    [5, 3, 8, 1, 9, 2, 7] (by decide)⟩

end OrderStatisticsClaims

section HypervolumeClaims

variable {P R D : Type}

/-- Once the size check on the first point has passed, `operator()` returns the value of
one algorithm object, chosen by the length of the reference point and the approximation
flag, called with the extractor (composed with the logarithm when the log flag is set), the
points and the reference point. -/
theorem apply_of_size_eq (self : HypervolumeCalculator) (alg : Algorithms P R D) (log : R → R)
    (extractor : P → List R) (first : P) (rest : List P) (refPoint : List R)
    (hsize : (extractor first).length = refPoint.length) :
    self.apply alg log extractor (first :: rest) refPoint
      = Outcome.returned (alg.run
          { algorithm :=
              if refPoint.length = 2 then Algorithm.exact2D
              else if refPoint.length = 3 then Algorithm.exact3D
              else if self.m_useApproximation then Algorithm.approximator
              else Algorithm.exactND
            extractor := if self.m_useLogHyp then fun x => (extractor x).map log else extractor
            points := first :: rest
            refPoint := refPoint }) := by
  simp only [HypervolumeCalculator.apply, List.head?_cons, SIZE_CHECK, hsize, decide_True,
    if_true]
  by_cases h2 : refPoint.length = 2
  · by_cases hl : self.m_useLogHyp = true <;> simp [h2, hl, Algorithms.run]
  · by_cases h3 : refPoint.length = 3
    · by_cases hl : self.m_useLogHyp = true <;> simp [h3, hl, Algorithms.run]
    · by_cases ha : self.m_useApproximation = true <;>
        by_cases hl : self.m_useLogHyp = true <;> simp [h2, h3, ha, hl, Algorithms.run]

/-- C8: for every reference point of length `d >= 2` and every setting of the two flags, a
call that passes the size check on the first point delegates to one algorithm, fixed by `d`
and the approximation flag: the 2D algorithm for `d = 2`, the 3D algorithm for `d = 3`, the
ND algorithm for `d >= 4` without approximation and the approximator for `d >= 4` with
approximation; the log flag only changes the extractor, never the algorithm. -/
theorem apply_dispatch (self : HypervolumeCalculator) (alg : Algorithms P R D) (log : R → R)
    (extractor : P → List R) (first : P) (rest : List P) (refPoint : List R)
    (hd : 2 ≤ refPoint.length) (hsize : (extractor first).length = refPoint.length) :
    (refPoint.length = 2 ∨ refPoint.length = 3 ∨ 4 ≤ refPoint.length) ∧
    (refPoint.length = 2 →
      self.apply alg log extractor (first :: rest) refPoint = Outcome.returned
        (alg.calculator2D (if self.m_useLogHyp then fun x => (extractor x).map log else extractor)
          (first :: rest) refPoint)) ∧
    (refPoint.length = 3 →
      self.apply alg log extractor (first :: rest) refPoint = Outcome.returned
        (alg.calculator3D (if self.m_useLogHyp then fun x => (extractor x).map log else extractor)
          (first :: rest) refPoint)) ∧
    (4 ≤ refPoint.length → self.m_useApproximation = false →
      self.apply alg log extractor (first :: rest) refPoint = Outcome.returned
        (alg.calculatorND (if self.m_useLogHyp then fun x => (extractor x).map log else extractor)
          (first :: rest) refPoint)) ∧
    (4 ≤ refPoint.length → self.m_useApproximation = true →
      self.apply alg log extractor (first :: rest) refPoint = Outcome.returned
        (alg.m_approximationAlgorithm
          (if self.m_useLogHyp then fun x => (extractor x).map log else extractor)
          (first :: rest) refPoint)) ∧
    (self.apply (recording P R) log extractor (first :: rest) refPoint).map
        (fun i => i.algorithm)
      = Outcome.returned
          (if refPoint.length = 2 then Algorithm.exact2D
           else if refPoint.length = 3 then Algorithm.exact3D
           else if self.m_useApproximation then Algorithm.approximator
           else Algorithm.exactND) ∧
    (∀ b : Bool,
      ((self.useLogHyp b).apply (recording P R) log extractor (first :: rest) refPoint).map
          (fun i => i.algorithm)
        = (self.apply (recording P R) log extractor (first :: rest) refPoint).map
          (fun i => i.algorithm)) := by
  refine ⟨by omega, ?_, ?_, ?_, ?_, ?_, ?_⟩
  · intro h
    rw [apply_of_size_eq self alg log extractor first rest refPoint hsize]
    simp [h, Algorithms.run]
  · intro h
    rw [apply_of_size_eq self alg log extractor first rest refPoint hsize]
    simp [h, Algorithms.run]
  · intro h ha
    have h2 : refPoint.length ≠ 2 := by omega
    have h3 : refPoint.length ≠ 3 := by omega
    rw [apply_of_size_eq self alg log extractor first rest refPoint hsize]
    simp [h2, h3, ha, Algorithms.run]
  · intro h ha
    have h2 : refPoint.length ≠ 2 := by omega
    have h3 : refPoint.length ≠ 3 := by omega
    rw [apply_of_size_eq self alg log extractor first rest refPoint hsize]
    simp [h2, h3, ha, Algorithms.run]
  · rw [apply_of_size_eq self (recording P R) log extractor first rest refPoint hsize]
    by_cases h2 : refPoint.length = 2
    · simp [h2, Outcome.map, Algorithms.run, recording]
    · by_cases h3 : refPoint.length = 3
      · simp [h3, Outcome.map, Algorithms.run, recording]
      · by_cases ha : self.m_useApproximation = true <;>
          simp [h2, h3, ha, Outcome.map, Algorithms.run, recording]
  · intro b
    rw [apply_of_size_eq self (recording P R) log extractor first rest refPoint hsize,
      apply_of_size_eq (self.useLogHyp b) (recording P R) log extractor first rest refPoint hsize]
    by_cases h2 : refPoint.length = 2
    · simp [h2, Outcome.map, Algorithms.run, recording]
    · by_cases h3 : refPoint.length = 3
      · simp [h3, Outcome.map, Algorithms.run, recording]
      · by_cases ha : self.m_useApproximation = true <;>
          simp [h2, h3, ha, Outcome.map, Algorithms.run, recording,
            HypervolumeCalculator.useLogHyp]

/-- Witness for C8: a four-dimensional reference point, the log flag set, the approximation
flag not set, the recording algorithm objects. -/
theorem apply_dispatch_witness :
    2 ≤ ([5, 5, 5, 5] : List Nat).length ∧
    ((fun p : List Nat => p) [1, 2, 3, 4]).length = ([5, 5, 5, 5] : List Nat).length ∧
    (HypervolumeCalculator.mk true false).apply (recording (List Nat) Nat) (fun x => x + 1)
        (fun p => p) [[1, 2, 3, 4], [4, 3, 2, 1]] [5, 5, 5, 5]
      = Outcome.returned
          { algorithm := Algorithm.exactND
            extractor := fun x => ((fun p : List Nat => p) x).map (fun x => x + 1)
            points := [[1, 2, 3, 4], [4, 3, 2, 1]]
            refPoint := [5, 5, 5, 5] } :=
  ⟨by decide, by decide,
    (apply_dispatch (HypervolumeCalculator.mk true false) (recording (List Nat) Nat)
      (fun x => x + 1) (fun p => p) [1, 2, 3, 4] [[4, 3, 2, 1]] [5, 5, 5, 5]
      (by decide) (by decide)).2.2.2.1 (by decide) rfl⟩

/-- C9, counterexample: with a reference point of length 1, and with one of length 0, the
default calculator raises no error; the call is delegated to the ND algorithm. -/
theorem apply_below_two_dimensions_delegates :
    ([7] : List Nat).length < 2 ∧
    (HypervolumeCalculator.new.apply (recording (List Nat) Nat) (fun x => x) (fun p => p)
        [[3]] [7]).map (fun i => i.algorithm) = Outcome.returned Algorithm.exactND ∧
    ([] : List Nat).length < 2 ∧
    (HypervolumeCalculator.new.apply (recording (List Nat) Nat) (fun x => x) (fun p => p)
        [[]] []).map (fun i => i.algorithm) = Outcome.returned Algorithm.exactND := by
  decide

/-- C9, amended: for every reference point of length `d < 2`, a call that passes the size
check on the first point raises no error: it is delegated to the ND algorithm when the
approximation flag is not set and to the approximator when it is set. -/
theorem apply_below_two_dimensions (self : HypervolumeCalculator) (alg : Algorithms P R D)
    (log : R → R) (extractor : P → List R) (first : P) (rest : List P) (refPoint : List R)
    (hd : refPoint.length < 2) (hsize : (extractor first).length = refPoint.length) :
    self.apply alg log extractor (first :: rest) refPoint
      = Outcome.returned
          (if self.m_useApproximation then
            alg.m_approximationAlgorithm
              (if self.m_useLogHyp then fun x => (extractor x).map log else extractor)
              (first :: rest) refPoint
          else
            alg.calculatorND
              (if self.m_useLogHyp then fun x => (extractor x).map log else extractor)
              (first :: rest) refPoint) := by
  have h2 : refPoint.length ≠ 2 := by omega
  have h3 : refPoint.length ≠ 3 := by omega
  rw [apply_of_size_eq self alg log extractor first rest refPoint hsize]
  by_cases ha : self.m_useApproximation = true <;> simp [h2, h3, ha, Algorithms.run]

/-- Witness for C9 as amended: a one-dimensional reference point with the approximation
flag set. -/
theorem apply_below_two_dimensions_witness :
    ([7] : List Nat).length < 2 ∧
    ((fun p : List Nat => p) [3]).length = ([7] : List Nat).length ∧
    ((HypervolumeCalculator.mk false true).apply (recording (List Nat) Nat) (fun x => x)
        (fun p => p) [[3], [4]] [7]).map (fun i => i.algorithm)
      = Outcome.returned Algorithm.approximator :=
  ⟨by decide, by decide, by
    rw [apply_below_two_dimensions (HypervolumeCalculator.mk false true)
      (recording (List Nat) Nat) (fun x => x) (fun p => p) [3] [[4]] [7] (by decide) (by decide)]
    rfl⟩

/-- C10, counterexample: the second point `[1, 2, 3]` has three coordinates while the
reference point `[4, 4]` has two, the first point has two; the call raises no error and is
delegated to the 2D algorithm. -/
theorem apply_ignores_size_of_later_points :
    (∃ p ∈ ([[1, 2], [1, 2, 3]] : List (List Nat)),
      ((fun p : List Nat => p) p).length ≠ ([4, 4] : List Nat).length) ∧
    (HypervolumeCalculator.new.apply (recording (List Nat) Nat) (fun x => x) (fun p => p)
        [[1, 2], [1, 2, 3]] [4, 4]).map (fun i => i.algorithm)
      = Outcome.returned Algorithm.exact2D := by
  decide

/-- C10, amended: for every non-empty point collection whose first point has an extracted
coordinate vector of a length other than that of the reference point, `operator()` fails
with an invalid-argument error and returns the value of no algorithm. -/
theorem apply_size_mismatch_first (self : HypervolumeCalculator) (alg : Algorithms P R D)
    (log : R → R) (extractor : P → List R) (first : P) (rest : List P) (refPoint : List R)
    (hsize : (extractor first).length ≠ refPoint.length) :
    self.apply alg log extractor (first :: rest) refPoint = Outcome.invalidArgument := by
  simp [HypervolumeCalculator.apply, SIZE_CHECK, hsize]

/-- Witness for C10 as amended: the first point has three coordinates, the reference point
two. -/
theorem apply_size_mismatch_first_witness :
    ((fun p : List Nat => p) [1, 2, 3]).length ≠ ([4, 4] : List Nat).length ∧
    (HypervolumeCalculator.new.apply (recording (List Nat) Nat) (fun x => x) (fun p => p)
        [[1, 2, 3], [1, 2]] [4, 4]) = Outcome.invalidArgument :=
  ⟨by decide, apply_size_mismatch_first HypervolumeCalculator.new (recording (List Nat) Nat)
    (fun x => x) (fun p => p) [1, 2, 3] [[1, 2]] [4, 4] (by decide)⟩

/-- C11, counterexample: on an empty point collection the default calculator does not fail
with an invalid-argument error; evaluating the size check reads the first point of the empty
collection, and the call has no defined outcome. -/
theorem apply_empty_not_invalidArgument :
    HypervolumeCalculator.new.apply (recording (List Nat) Nat) (fun x => x) (fun p => p)
        [] [4, 4] = Outcome.undefined ∧
    HypervolumeCalculator.new.apply (recording (List Nat) Nat) (fun x => x) (fun p => p)
        [] [4, 4] ≠ Outcome.invalidArgument := by
  constructor
  · rfl
  · intro h
    cases h

/-- C11, amended: for every call of `operator()` with an empty point collection there is no
emptiness check and no invalid-argument error: the argument of the size check reads
`*points.begin()` of the empty collection, so the call has no defined outcome; it returns the
value of no algorithm. -/
theorem apply_empty (self : HypervolumeCalculator) (alg : Algorithms P R D) (log : R → R)
    (extractor : P → List R) (refPoint : List R) :
    self.apply alg log extractor [] refPoint = Outcome.undefined ∧
    self.apply alg log extractor [] refPoint ≠ Outcome.invalidArgument ∧
    ∀ value, self.apply alg log extractor [] refPoint ≠ Outcome.returned value := by
  refine ⟨rfl, ?_, ?_⟩
  · intro h
    cases h
  · intro value h
    cases h

/-- C14, counterexample: for the point set `{(1,4), (2,2), (3,1)}` and the reference point
`(4,4)` the default calculator calls the 2D algorithm, and the 2D algorithm of the
specification returns 5, not 7; the dominated region has area 5. -/
theorem apply_2D_example_not_seven :
    (HypervolumeCalculator.new.apply (recording (List Int) Int) (fun x => x) (fun p => p)
        [[1, 4], [2, 2], [3, 1]] [4, 4]).map (fun i => i.algorithm)
      = Outcome.returned Algorithm.exact2D ∧
    HypervolumeCalculator.new.apply
        (withHypervolume2D (fun _ _ _ => 0) (fun _ _ _ => 0) (fun _ _ _ => 0)) (fun x => x)
        (fun p => p) [[1, 4], [2, 2], [3, 1]] [4, 4] ≠ Outcome.returned 7 ∧
    dominatedArea [(1, 4), (2, 2), (3, 1)] (4, 4) ≠ 7 := by
  decide

/-- C14, amended: for the point set `{(1,4), (2,2), (3,1)}` with reference point `(4,4)` and
the default configuration, the calculator calls the 2D algorithm, whatever the other three
algorithm objects are, and the returned hypervolume equals 5, the area of the region
dominated by the point set and bounded by the reference point. -/
theorem apply_2D_example (calculator3D calculatorND approximation :
    (List Int → List Int) → List (List Int) → List Int → Int) (log : Int → Int) :
    (HypervolumeCalculator.new.apply (recording (List Int) Int) log (fun p => p)
        [[1, 4], [2, 2], [3, 1]] [4, 4]).map (fun i => i.algorithm)
      = Outcome.returned Algorithm.exact2D ∧
    HypervolumeCalculator.new.apply
        (withHypervolume2D calculator3D calculatorND approximation) log
        (fun p => p) [[1, 4], [2, 2], [3, 1]] [4, 4] = Outcome.returned 5 ∧
    dominatedArea [(1, 4), (2, 2), (3, 1)] (4, 4) = 5 := by
  refine ⟨by rfl, by rfl, by decide⟩

/-- C19: a default-constructed calculator has both flags off, so for every reference point of
length `d >= 4` a call that passes the size check on the first point is delegated to the ND
algorithm with the extractor of the caller; `useLogHyp` and `useApproximation` each set
their own flag and leave the other as it was. -/
theorem new_flags_and_setters (alg : Algorithms P R D) (log : R → R)
    (extractor : P → List R) (first : P) (rest : List P) (refPoint : List R)
    (hd : 4 ≤ refPoint.length) (hsize : (extractor first).length = refPoint.length) :
    HypervolumeCalculator.new.m_useLogHyp = false ∧
    HypervolumeCalculator.new.m_useApproximation = false ∧
    HypervolumeCalculator.new.apply alg log extractor (first :: rest) refPoint
      = Outcome.returned (alg.calculatorND extractor (first :: rest) refPoint) ∧
    HypervolumeCalculator.new.apply (recording P R) log extractor (first :: rest) refPoint
      = Outcome.returned
          { algorithm := Algorithm.exactND, extractor := extractor,
            points := first :: rest, refPoint := refPoint } ∧
    (∀ (self : HypervolumeCalculator) (b : Bool),
      (self.useLogHyp b).m_useLogHyp = b ∧
      (self.useLogHyp b).m_useApproximation = self.m_useApproximation ∧
      (self.useApproximation b).m_useApproximation = b ∧
      (self.useApproximation b).m_useLogHyp = self.m_useLogHyp) := by
  have h2 : refPoint.length ≠ 2 := by omega
  have h3 : refPoint.length ≠ 3 := by omega
  refine ⟨rfl, rfl, ?_, ?_, fun self b => ⟨rfl, rfl, rfl, rfl⟩⟩
  · rw [apply_of_size_eq _ alg log extractor first rest refPoint hsize]
    simp [h2, h3, Algorithms.run, HypervolumeCalculator.new]
  · rw [apply_of_size_eq _ (recording P R) log extractor first rest refPoint hsize]
    simp [h2, h3, Algorithms.run, HypervolumeCalculator.new, recording]

/-- Witness for C19: a five-dimensional reference point. -/
theorem new_flags_and_setters_witness :
    4 ≤ ([9, 9, 9, 9, 9] : List Nat).length ∧
    ((fun p : List Nat => p) [1, 2, 3, 4, 5]).length = ([9, 9, 9, 9, 9] : List Nat).length ∧
    (HypervolumeCalculator.new.apply (recording (List Nat) Nat) (fun x => x + 1)
        (fun p => p) [[1, 2, 3, 4, 5]] [9, 9, 9, 9, 9]).map (fun i => i.algorithm)
      = Outcome.returned Algorithm.exactND :=
  ⟨by decide, by decide, by
    rw [(new_flags_and_setters (recording (List Nat) Nat) (fun x => x + 1) (fun p => p)
      [1, 2, 3, 4, 5] [] [9, 9, 9, 9, 9] (by decide) (by decide)).2.2.2.1]
    rfl⟩

end HypervolumeClaims

end shark

